import Mathlib

/-!
Shallow embedding of `src/lib/hd/keyorigininfo.js` (class `KeyOriginInfo`).

JavaScript numbers appearing in this module are integers, modelled as `Int`.
The JS coercions `x >>> 0` (ToUint32), bitwise `&` and `|` (which operate on
the 32 low bits and return a signed 32-bit result) are modelled explicitly.
Buffers are modelled as `List Nat`, each element an octet; the bufio reader
and writer primitives used by the class (`readU32BE`, `readU32`, `writeU32BE`,
`writeU32`, `left`) are embedded with their JS semantics: the 32-bit writers
coerce each byte modulo 256 (no range check), `writeU32BE` is big-endian,
`writeU32` is little-endian, and reads fail when fewer than 4 bytes remain.
-/

namespace KeyOrigin

/-- ECMAScript ToUint32 of an integral number: reduce modulo 2^32 into [0, 2^32). -/
def toUint32 (x : Int) : Int := x % (2 ^ 32 : Int)

/-- ECMAScript ToInt32 of an integral number: the 32 low bits, interpreted signed. -/
def toInt32 (x : Int) : Int :=
  if x % (2 ^ 32 : Int) < 2 ^ 31 then x % (2 ^ 32 : Int) else x % (2 ^ 32 : Int) - 2 ^ 32

/-- The 32-bit pattern of a JS integer, as a natural number in [0, 2^32). -/
def u32 (x : Int) : Nat := (toUint32 x).toNat

/-- Bitwise AND of the low `k` bits (bit and of bits a, b is `min a b`). -/
def and32 : Nat → Nat → Nat → Nat
  | 0, _, _ => 0
  | k + 1, a, b => min (a % 2) (b % 2) + 2 * and32 k (a / 2) (b / 2)

/-- Bitwise OR of the low `k` bits (bit or of bits a, b is `max a b`). -/
def or32 : Nat → Nat → Nat → Nat
  | 0, _, _ => 0
  | k + 1, a, b => max (a % 2) (b % 2) + 2 * or32 k (a / 2) (b / 2)

/-- JS bitwise `a & b` on integers: AND of the 32-bit patterns, signed result. -/
def jsAnd (a b : Int) : Int := toInt32 ((and32 32 (u32 a) (u32 b) : Nat) : Int)

/-- JS bitwise `a | b` on integers: OR of the 32-bit patterns, signed result. -/
def jsOr (a b : Int) : Int := toInt32 ((or32 32 (u32 a) (u32 b) : Nat) : Int)

/-- The JS test `(x >>> 0) === x` used by the assertions of the class. -/
def isU32 (x : Int) : Bool := toUint32 x == x

/-- `common.HARDENED`: the BIP32 hardened bit. -/
def HARDENED : Int := 0x80000000

/-- The in-memory state of a `KeyOriginInfo` instance. -/
structure KeyOriginInfo where
  fingerPrint : Int
  path : List Int
deriving Repr, DecidableEq

/-- A JS `path` field may hold an array of numbers or a string. -/
inductive PathArg where
  | arr (l : List Int)
  | str (s : String)
deriving Repr, DecidableEq

/-- The options object consumed by `fromOptions` (absent fields are `none`). -/
structure Options where
  fingerPrint : Option Int
  path : Option PathArg
deriving Repr, DecidableEq

/-- The object consumed by `fromJSON` (absent fields are `none`). -/
structure JsonInfo where
  fingerPrint : Option Int
  path : Option PathArg
deriving Repr, DecidableEq

/-- Modelled from the spec: `common.parsePath` lives in `src/lib/hd/common.js`,
which is not among the supplied sources. Spec section 4.1: each segment is a
decimal numeral in [0, 2^31) optionally followed by a hardening marker
(apostrophe or `h`) which sets bit 31; anything else fails parsing. -/
def parseSegment (s : String) : Option Int :=
  let hardened : Bool := s.endsWith "\x27" || s.endsWith "h"
  let core := if hardened then s.dropRight 1 else s
  if core.isEmpty then none
  else if !(core.toList.all Char.isDigit) then none
  else match core.toNat? with
    | none => none
    | some n =>
      if n < 2 ^ 31 then some (((n + if hardened then 2 ^ 31 else 0 : Nat)) : Int)
      else none

/-- Modelled from the spec: parse every slash-separated segment, failing as a
whole if any segment fails. -/
def parseSegs : List String → Option (List Int)
  | [] => some []
  | s :: rest =>
    match parseSegment s with
    | none => none
    | some v => (parseSegs rest).map (fun l => v :: l)

/-- Modelled from the spec: `common.parsePath` on a string; optional leading
`m` or `M` root, then zero or more slash-separated segments. -/
def parsePath (s : String) : Option (List Int) :=
  let parts := s.splitOn "/"
  if parts.head? = some "m" ∨ parts.head? = some "M" then parseSegs parts.tail
  else parseSegs parts

/-- The fingerprint block shared verbatim by `fromOptions` and `fromJSON`:
`if (x.fingerPrint) \x7b assert((x.fingerPrint >>> 0) === x.fingerPrint); ... \x7d`.
A JS truthiness test guards the field, so the number 0 is skipped exactly like
an absent field and the fingerprint keeps the constructor value -1; a failed
`assert` becomes `none`. -/
def fpFromField (f : Option Int) : Option Int :=
  match f with
  | some v =>
    if v == 0 then some (-1)
    else if isU32 v then some v else none
  | none => some (-1)

/-- The path block of `fromOptions`: an array (always truthy, even empty) is
asserted element-wise uint32 and taken as is; a non-empty string goes through
`parsePath`; an absent or empty-string field (falsy) keeps the constructor
value `[]`. -/
def pathFromOptionsField (f : Option PathArg) : Option (List Int) :=
  match f with
  | some (PathArg.arr l) => if l.all isU32 then some l else none
  | some (PathArg.str s) => if s.isEmpty then some [] else parsePath s
  | none => some []

/-- The path block of `fromJSON`: only a non-empty array is consumed
element-wise; an empty array falls through to `parsePath`, whose string
assertion then fails. -/
def pathFromJSONField (f : Option PathArg) : Option (List Int) :=
  match f with
  | some (PathArg.arr l) =>
    if l.length > 0 then (if l.all isU32 then some l else none)
    else none
  | some (PathArg.str s) => if s.isEmpty then some [] else parsePath s
  | none => some []

/-- Embedding of `fromOptions` (called on a fresh instance, as the static
`fromOptions` does). -/
def fromOptions (o : Options) : Option KeyOriginInfo := do
  let fp : Int ← fpFromField o.fingerPrint
  let path : List Int ← pathFromOptionsField o.path
  some ⟨fp, path⟩

/-- Embedding of `fromJSON` (on a fresh instance). -/
def fromJSON (j : JsonInfo) : Option KeyOriginInfo := do
  let fp : Int ← fpFromField j.fingerPrint
  let path : List Int ← pathFromJSONField j.path
  some ⟨fp, path⟩

/-- One comparison step of `equals`: JS strict inequality between `a[i]` and
`b[i]`, where an out-of-range index reads `undefined`, and a number is never
strictly equal to `undefined`. -/
def pathIndexEq (a b : List Int) (i : Nat) : Bool :=
  match a[i]?, b[i]? with
  | some x, some y => x == y
  | none, none => true
  | _, _ => false

/-- Embedding of `equals`: fingerprints compared with strict equality, then a
`for..in` loop over the indices of the path of the receiver only. -/
def equals (a b : KeyOriginInfo) : Bool :=
  a.fingerPrint == b.fingerPrint &&
  (List.range a.path.length).all (pathIndexEq a.path b.path)

/-- The object returned by `format`. -/
structure Formatted where
  fingerPrint : Int
  path : String
deriving Repr, DecidableEq

/-- One loop iteration of `format`: append the display index `p & 0x7fffffff`
and an apostrophe when `p & HARDENED` is truthy (nonzero). -/
def formatStep (acc : String) (p : Int) : String :=
  let hardened := if jsAnd p HARDENED == 0 then "" else "\x27"
  acc ++ "/" ++ toString (jsAnd p 0x7fffffff) ++ hardened

/-- Embedding of `format`. -/
def format (k : KeyOriginInfo) : Formatted :=
  ⟨k.fingerPrint, k.path.foldl formatStep "m"⟩

/-- bufio `writeU32BE`: four big-endian bytes of the 32-bit pattern of `x`
(each byte store coerces modulo 256; negative input wraps, it does not throw). -/
def u32BEBytes (x : Int) : List Nat :=
  let u := u32 x
  [u / 2 ^ 24 % 256, u / 2 ^ 16 % 256, u / 2 ^ 8 % 256, u % 256]

/-- bufio `writeU32`: four little-endian bytes of the 32-bit pattern of `x`. -/
def u32LEBytes (x : Int) : List Nat :=
  let u := u32 x
  [u % 256, u / 2 ^ 8 % 256, u / 2 ^ 16 % 256, u / 2 ^ 24 % 256]

/-- Embedding of `getSize`. -/
def getSize (k : KeyOriginInfo) : Nat := 4 + k.path.length * 4

/-- Embedding of `toRaw` via `toWriter`: `writeU32BE(fingerPrint)` then
`writeU32(p)` (little-endian) for each path element in order. -/
def toRaw (k : KeyOriginInfo) : List Nat :=
  u32BEBytes k.fingerPrint ++ (k.path.map u32LEBytes).flatten

/-- bufio reader `readU32BE`: consume four bytes, big-endian value; an
out-of-bounds read throws, modelled as `none`. Buffer elements are octets, so
each byte is reduced modulo 256. -/
def readU32BE : List Nat → Option (Int × List Nat)
  | b0 :: b1 :: b2 :: b3 :: rest =>
    some ((((b0 % 256) * 2 ^ 24 + (b1 % 256) * 2 ^ 16 + (b2 % 256) * 2 ^ 8 + b3 % 256 : Nat) :
      Int), rest)
  | _ => none

/-- The value read by bufio `readU32` (little-endian) from four bytes. -/
def u32LEVal (b0 b1 b2 b3 : Nat) : Int :=
  ((b0 % 256 + (b1 % 256) * 2 ^ 8 + (b2 % 256) * 2 ^ 16 + (b3 % 256) * 2 ^ 24 : Nat) : Int)

/-- The `while (br.left())` loop of `fromReader`: read little-endian 32-bit
groups until the buffer is exhausted; a nonempty remainder of fewer than four
bytes makes `readU32` throw, modelled as `none`. -/
def readPath : List Nat → Option (List Int)
  | [] => some []
  | b0 :: b1 :: b2 :: b3 :: rest => (readPath rest).map (fun l => u32LEVal b0 b1 b2 b3 :: l)
  | _ => none

/-- Embedding of `fromRaw` via `fromReader` on a fresh instance: read the
big-endian fingerprint, then path elements until no bytes remain. -/
def fromRaw (data : List Nat) : Option KeyOriginInfo :=
  match readU32BE data with
  | none => none
  | some (fp, rest) => (readPath rest).map (fun path => ⟨fp, path⟩)

/-- The wallet key interface consumed by `fromWalletKey`. -/
structure WalletKey where
  publicKey : List Nat
  account : Int
  branch : Int
  index : Int

/-- Buffer `readUInt32BE(0, true)`: the first four bytes, big-endian. -/
def readUInt32BE0 (l : List Nat) : Int :=
  (((l.getD 0 0 % 256) * 2 ^ 24 + (l.getD 1 0 % 256) * 2 ^ 16 +
    (l.getD 2 0 % 256) * 2 ^ 8 + l.getD 3 0 % 256 : Nat) : Int)

/-- Embedding of `fromWalletKey` on a fresh instance. The 160-bit hash of the
public key is an external primitive, passed as the function `digest`. The
account element is pushed as `wk.account | common.HARDENED`, a JS signed
32-bit bitwise OR. -/
def fromWalletKey (digest : List Nat → List Nat) (wk : WalletKey) : KeyOriginInfo :=
  let fp := digest wk.publicKey
  { fingerPrint := readUInt32BE0 fp
  , path := [jsOr wk.account HARDENED, wk.branch, wk.index] }

/-- Embedding of `clear`, and also the state of a freshly constructed
instance before any `from*` injection. -/
def clear (_ : KeyOriginInfo) : KeyOriginInfo := ⟨-1, []⟩

/-- The data-model invariant of spec section 3: every path element is an
unsigned 32-bit integer, and the fingerprint is the unset sentinel or an
unsigned 32-bit integer. -/
def WellFormed (k : KeyOriginInfo) : Prop :=
  (k.fingerPrint = -1 ∨ toUint32 k.fingerPrint = k.fingerPrint) ∧
  ∀ p ∈ k.path, toUint32 p = p

/-- Follows the wording of the spec (section 4.1, Format): for each path
element, mask out bit 31 to obtain the display index, append an apostrophe
exactly when the hardened bit was set, join with slashes. Stated over the
32-bit pattern `u32 p` so that masking and bit testing are plain arithmetic. -/
def specFormatPath : List Int → String
  | [] => ""
  | p :: rest =>
    "/" ++ toString (u32 p % 2 ^ 31) ++ (if 2 ^ 31 ≤ u32 p then "\x27" else "") ++
      specFormatPath rest

/-! ### Helper lemmas about the JS integer model -/

theorem toUint32_eq_self {x : Int} (h0 : 0 ≤ x) (h1 : x < 2 ^ 32) : toUint32 x = x := by
  unfold toUint32; omega

theorem u32_lt (x : Int) : u32 x < 2 ^ 32 := by
  unfold u32 toUint32; omega

theorem ofNat_u32 {x : Int} (h0 : 0 ≤ x) (h1 : x < 2 ^ 32) : (u32 x : Int) = x := by
  unfold u32 toUint32; omega

theorem u32_ofNat {n : Nat} (h : n < 2 ^ 32) : u32 (n : Int) = n := by
  unfold u32 toUint32
  omega

theorem isU32_iff {x : Int} : isU32 x = true ↔ 0 ≤ x ∧ x < 2 ^ 32 := by
  unfold isU32 toUint32
  rw [beq_iff_eq]
  omega

theorem toInt32_ofNat_small {n : Nat} (h : n < 2 ^ 31) :
    toInt32 (n : Int) = (n : Int) := by
  unfold toInt32
  rw [if_pos (by omega)]
  omega

theorem and32_zero_right : ∀ k u, and32 k u 0 = 0 := by
  intro k
  induction k with
  | zero => intro u; rfl
  | succ k ih => intro u; simp [and32, ih]

theorem or32_zero_zero : ∀ k, or32 k 0 0 = 0 := by
  intro k
  induction k with
  | zero => rfl
  | succ k ih => simp [or32, ih]

theorem and32_mask : ∀ j k u, j ≤ k → and32 k u (2 ^ j - 1) = u % 2 ^ j := by
  intro j
  induction j with
  | zero =>
    intro k u _
    simpa [Nat.mod_one] using and32_zero_right k u
  | succ j ih =>
    intro j' u hjk
    cases j' with
    | zero => omega
    | succ k =>
      have hpow : 2 ^ (j + 1) = 2 * 2 ^ j := by ring
      have hp : 0 < 2 ^ j := Nat.pos_pow_of_pos j (by omega)
      have hmask : (2 ^ (j + 1) - 1) % 2 = 1 := by omega
      have hdiv : (2 ^ (j + 1) - 1) / 2 = 2 ^ j - 1 := by omega
      have ih2 := ih k (u / 2) (by omega)
      simp only [and32, hmask, hdiv, ih2]
      have hmin : min (u % 2) 1 = u % 2 := by omega
      rw [hmin, hpow, Nat.mod_mul]

theorem and32_bit : ∀ j k u, j < k → and32 k u (2 ^ j) = u / 2 ^ j % 2 * 2 ^ j := by
  intro j
  induction j with
  | zero =>
    intro k u hjk
    cases k with
    | zero => omega
    | succ k =>
      simp [and32, and32_zero_right]
      omega
  | succ j ih =>
    intro k' u hjk
    cases k' with
    | zero => omega
    | succ k =>
      have hpow : 2 ^ (j + 1) = 2 * 2 ^ j := by ring
      have hp : 0 < 2 ^ j := Nat.pos_pow_of_pos j (by omega)
      have hmask : 2 ^ (j + 1) % 2 = 0 := by omega
      have hdiv : 2 ^ (j + 1) / 2 = 2 ^ j := by omega
      have ih2 := ih k (u / 2) (by omega)
      simp only [and32, hmask, hdiv, ih2]
      have hmin : min (u % 2) 0 = 0 := by omega
      have hdd : u / 2 / 2 ^ j = u / 2 ^ (j + 1) := by
        rw [Nat.div_div_eq_div_mul, ← hpow]
      rw [hmin, hdd, hpow]
      ring

theorem or32_top : ∀ j k u, j < k → u < 2 ^ j → or32 k u (2 ^ j) = u + 2 ^ j := by
  intro j
  induction j with
  | zero =>
    intro k u hjk hu
    cases k with
    | zero => omega
    | succ k =>
      interval_cases u
      simp [or32, or32_zero_zero]
  | succ j ih =>
    intro k' u hjk hu
    cases k' with
    | zero => omega
    | succ k =>
      have hpow : 2 ^ (j + 1) = 2 * 2 ^ j := by ring
      have hp : 0 < 2 ^ j := Nat.pos_pow_of_pos j (by omega)
      have hmask : 2 ^ (j + 1) % 2 = 0 := by omega
      have hdiv : 2 ^ (j + 1) / 2 = 2 ^ j := by omega
      have hu2 : u / 2 < 2 ^ j := by omega
      have ih2 := ih k (u / 2) (by omega) hu2
      simp only [or32, hmask, hdiv, ih2]
      have hmax : max (u % 2) 0 = u % 2 := by omega
      rw [hmax]
      omega

/-! ### Binary codec lemmas -/

theorem readU32BE_append (x : Int) (rest : List Nat) (h0 : 0 ≤ x) (h1 : x < 2 ^ 32) :
    readU32BE (u32BEBytes x ++ rest) = some (x, rest) := by
  simp only [u32BEBytes, List.cons_append, List.nil_append, readU32BE, Option.some.injEq,
    Prod.mk.injEq, and_true]
  unfold u32 toUint32
  omega

theorem u32LEVal_of_bytes (p : Int) (h0 : 0 ≤ p) (h1 : p < 2 ^ 32) :
    u32LEVal (u32 p % 256) (u32 p / 2 ^ 8 % 256) (u32 p / 2 ^ 16 % 256) (u32 p / 2 ^ 24 % 256) =
      p := by
  unfold u32LEVal u32 toUint32
  omega

theorem readPath_flatten : ∀ path : List Int, (∀ p ∈ path, toUint32 p = p) →
    readPath ((path.map u32LEBytes).flatten) = some path
  | [], _ => by simp [readPath]
  | p :: ps, h => by
    have hp := h p (List.mem_cons_self p ps)
    have hps : ∀ q ∈ ps, toUint32 q = q := fun q hq => h q (List.mem_cons_of_mem p hq)
    have ih := readPath_flatten ps hps
    have hp0 : 0 ≤ p := by unfold toUint32 at hp; omega
    have hp1 : p < 2 ^ 32 := by unfold toUint32 at hp; omega
    rw [show (List.map u32LEBytes (p :: ps)).flatten =
        u32 p % 256 :: u32 p / 2 ^ 8 % 256 :: u32 p / 2 ^ 16 % 256 :: u32 p / 2 ^ 24 % 256 ::
          (List.map u32LEBytes ps).flatten from rfl]
    simp only [readPath, ih, Option.map_some', Option.some.injEq]
    rw [u32LEVal_of_bytes p hp0 hp1]

theorem readPath_isSome : ∀ l : List Nat, (readPath l).isSome = decide (l.length % 4 = 0)
  | [] => by simp [readPath]
  | [b0] => by simp [readPath]
  | [b0, b1] => by simp [readPath]
  | [b0, b1, b2] => by simp [readPath]
  | b0 :: b1 :: b2 :: b3 :: rest => by
    have ih := readPath_isSome rest
    simp only [readPath, Option.isSome_map', ih, List.length_cons]
    rw [decide_eq_decide]
    omega

/-- C4: for every KeyOriginInfo whose fingerprint is in [0, 2^32) and whose
path is a finite sequence of unsigned 32-bit integers (possibly empty),
decoding the encoding yields the same value back, and that value is equal to
the original under the equals operation. -/
theorem fromRaw_toRaw_roundtrip (k : KeyOriginInfo)
    (hfp0 : 0 ≤ k.fingerPrint) (hfp1 : k.fingerPrint < 2 ^ 32)
    (hpath : ∀ p ∈ k.path, toUint32 p = p) :
    fromRaw (toRaw k) = some k ∧ equals k k = true := by
  constructor
  · have h1 := readU32BE_append k.fingerPrint ((List.map u32LEBytes k.path).flatten) hfp0 hfp1
    have h2 := readPath_flatten k.path hpath
    unfold toRaw fromRaw
    rw [h1]
    simp only [h2, Option.map_some']
  · unfold equals
    rw [Bool.and_eq_true]
    refine ⟨beq_self_eq_true k.fingerPrint, ?_⟩
    rw [List.all_eq_true]
    intro i hi
    rw [List.mem_range] at hi
    unfold pathIndexEq
    rw [List.getElem?_eq_getElem hi]
    simp

/-- Witness for C4 at the concrete instance of the spec scenario. -/
theorem fromRaw_toRaw_roundtrip_witness :
    fromRaw (toRaw ⟨0xDEADBEEF, [0x8000002C, 0x80000000, 5]⟩) =
      some ⟨0xDEADBEEF, [0x8000002C, 0x80000000, 5]⟩ ∧
    equals ⟨0xDEADBEEF, [0x8000002C, 0x80000000, 5]⟩
      ⟨0xDEADBEEF, [0x8000002C, 0x80000000, 5]⟩ = true :=
  fromRaw_toRaw_roundtrip ⟨0xDEADBEEF, [0x8000002C, 0x80000000, 5]⟩
    (by decide) (by decide) (by decide)

/-- C5: binary decoding succeeds exactly on buffers of length 4 + 4k; it
fails on buffers shorter than 4 bytes and on buffers whose length after the
4-byte fingerprint is not a multiple of 4 (such as a 6-byte buffer). -/
theorem fromRaw_defined_iff_valid_length (data : List Nat) :
    (fromRaw data).isSome = true ↔ 4 ≤ data.length ∧ (data.length - 4) % 4 = 0 := by
  match data with
  | [] => simp [fromRaw, readU32BE]
  | [b0] => simp [fromRaw, readU32BE]
  | [b0, b1] => simp [fromRaw, readU32BE]
  | [b0, b1, b2] => simp [fromRaw, readU32BE]
  | b0 :: b1 :: b2 :: b3 :: rest =>
    have h := readPath_isSome rest
    simp only [fromRaw, readU32BE, Option.isSome_map', h, List.length_cons,
      decide_eq_true_eq]
    omega

/-! ### Construction lemmas -/

theorem fpFromField_cases {f : Option Int} {v : Int} (h : fpFromField f = some v) :
    v = -1 ∨ (0 ≤ v ∧ v < 2 ^ 32) := by
  unfold fpFromField at h
  split at h
  · split at h
    · left
      injection h with h
      omega
    · split at h
      · right
        injection h with h
        subst h
        rename_i hw
        exact isU32_iff.mp hw
      · exact absurd h (by simp)
  · left
    injection h with h
    omega

theorem parseSegment_u32 {s : String} {p : Int} (h : parseSegment s = some p) :
    toUint32 p = p := by
  simp only [parseSegment] at h
  repeat' split at h
  all_goals
    first
    | exact Option.noConfusion h
    | (injection h with h; subst h; unfold toUint32; omega)

theorem parseSegs_u32 : ∀ ss l, parseSegs ss = some l → ∀ p ∈ l, toUint32 p = p
  | [], l, h => by
    intro p hp
    unfold parseSegs at h
    injection h with h
    subst h
    simp at hp
  | s :: rest, l, h => by
    intro p hp
    unfold parseSegs at h
    split at h
    · exact absurd h (by simp)
    · rename_i v hv
      rcases hrest : parseSegs rest with _ | l2
      · rw [hrest] at h
        simp at h
      · rw [hrest] at h
        simp only [Option.map_some', Option.some.injEq] at h
        subst h
        rcases List.mem_cons.mp hp with rfl | hp2
        · exact parseSegment_u32 hv
        · exact parseSegs_u32 rest l2 hrest p hp2

theorem parsePath_u32 {s : String} {l : List Int} (h : parsePath s = some l) :
    ∀ p ∈ l, toUint32 p = p := by
  simp only [parsePath] at h
  split at h
  · exact parseSegs_u32 _ _ h
  · exact parseSegs_u32 _ _ h

theorem pathFromOptionsField_u32 {f : Option PathArg} {l : List Int}
    (h : pathFromOptionsField f = some l) : ∀ p ∈ l, toUint32 p = p := by
  unfold pathFromOptionsField at h
  split at h
  · split at h
    · rename_i hall
      injection h with h
      subst h
      intro p hp
      have h2 := List.all_eq_true.mp hall p hp
      have h3 := isU32_iff.mp h2
      unfold toUint32
      omega
    · exact absurd h (by simp)
  · split at h
    · injection h with h
      subst h
      simp
    · exact parsePath_u32 h
  · injection h with h
    subst h
    simp

theorem pathFromJSONField_u32 {f : Option PathArg} {l : List Int}
    (h : pathFromJSONField f = some l) : ∀ p ∈ l, toUint32 p = p := by
  unfold pathFromJSONField at h
  split at h
  · split at h
    · split at h
      · rename_i hall
        injection h with h
        subst h
        intro p hp
        have h2 := List.all_eq_true.mp hall p hp
        have h3 := isU32_iff.mp h2
        unfold toUint32
        omega
      · exact absurd h (by simp)
    · exact absurd h (by simp)
  · split at h
    · injection h with h
      subst h
      simp
    · exact parsePath_u32 h
  · injection h with h
    subst h
    simp

theorem fromOptions_eq_some {o : Options} {k : KeyOriginInfo} :
    fromOptions o = some k ↔
      ∃ fp path, fpFromField o.fingerPrint = some fp ∧
        pathFromOptionsField o.path = some path ∧ k = KeyOriginInfo.mk fp path := by
  unfold fromOptions
  rcases hfp : fpFromField o.fingerPrint with _ | fp
  · simp
  · rcases hpath : pathFromOptionsField o.path with _ | path
    · simp
    · simp only [Option.bind_eq_bind, Option.some_bind, Option.some.injEq]
      constructor
      · intro h
        exact ⟨fp, path, rfl, rfl, h.symm⟩
      · rintro ⟨fp2, path2, h1, h2, h3⟩
        subst h1
        subst h2
        exact h3.symm

theorem fromJSON_eq_some {j : JsonInfo} {k : KeyOriginInfo} :
    fromJSON j = some k ↔
      ∃ fp path, fpFromField j.fingerPrint = some fp ∧
        pathFromJSONField j.path = some path ∧ k = KeyOriginInfo.mk fp path := by
  unfold fromJSON
  rcases hfp : fpFromField j.fingerPrint with _ | fp
  · simp
  · rcases hpath : pathFromJSONField j.path with _ | path
    · simp
    · simp only [Option.bind_eq_bind, Option.some_bind, Option.some.injEq]
      constructor
      · intro h
        exact ⟨fp, path, rfl, rfl, h.symm⟩
      · rintro ⟨fp2, path2, h1, h2, h3⟩
        subst h1
        subst h2
        exact h3.symm

theorem readU32BE_range {d : List Nat} {v : Int} {rest : List Nat}
    (h : readU32BE d = some (v, rest)) : 0 ≤ v ∧ v < 2 ^ 32 := by
  match d with
  | [] => exact absurd h (by simp [readU32BE])
  | [b0] => exact absurd h (by simp [readU32BE])
  | [b0, b1] => exact absurd h (by simp [readU32BE])
  | [b0, b1, b2] => exact absurd h (by simp [readU32BE])
  | b0 :: b1 :: b2 :: b3 :: d2 =>
    unfold readU32BE at h
    injection h with h
    have h1 := congrArg Prod.fst h
    simp only at h1
    subst h1
    constructor <;> [positivity; skip]
    have e0 : b0 % 256 < 256 := Nat.mod_lt b0 (by omega)
    have e1 : b1 % 256 < 256 := Nat.mod_lt b1 (by omega)
    have e2 : b2 % 256 < 256 := Nat.mod_lt b2 (by omega)
    have e3 : b3 % 256 < 256 := Nat.mod_lt b3 (by omega)
    omega

theorem readPath_u32 : ∀ d l, readPath d = some l → ∀ p ∈ l, toUint32 p = p
  | [], l, h => by
    intro p hp
    unfold readPath at h
    injection h with h
    subst h
    simp at hp
  | b0 :: b1 :: b2 :: b3 :: rest, l, h => by
    intro p hp
    unfold readPath at h
    rcases hrest : readPath rest with _ | l2
    · rw [hrest] at h
      simp at h
    · rw [hrest] at h
      simp only [Option.map_some', Option.some.injEq] at h
      subst h
      rcases List.mem_cons.mp hp with rfl | hp2
      · unfold u32LEVal toUint32
        have e0 : b0 % 256 < 256 := Nat.mod_lt b0 (by omega)
        have e1 : b1 % 256 < 256 := Nat.mod_lt b1 (by omega)
        have e2 : b2 % 256 < 256 := Nat.mod_lt b2 (by omega)
        have e3 : b3 % 256 < 256 := Nat.mod_lt b3 (by omega)
        omega
      · exact readPath_u32 rest l2 hrest p hp2
  | [b0], l, h => by exact absurd h (by simp [readPath])
  | [b0, b1], l, h => by exact absurd h (by simp [readPath])
  | [b0, b1, b2], l, h => by exact absurd h (by simp [readPath])

theorem fromRaw_eq_some {d : List Nat} {k : KeyOriginInfo} (h : fromRaw d = some k) :
    ∃ v rest, readU32BE d = some (v, rest) ∧ readPath rest = some k.path ∧
      k.fingerPrint = v := by
  unfold fromRaw at h
  split at h
  · exact absurd h (by simp)
  · rename_i v rest hbe
    rcases hrest : readPath rest with _ | path
    · rw [hrest] at h
      simp at h
    · rw [hrest] at h
      simp only [Option.map_some', Option.some.injEq] at h
      subst h
      exact ⟨v, rest, hbe, hrest, rfl⟩

/-! ### Claim theorems -/

/-- C1: the claim states that equals is length-sensitive, in particular false
on equal fingerprints with paths [1] and [1, 2]. The code only compares over
the indices of the receiver path, so it returns true there (and, showing the
asymmetry, false with the arguments swapped): the length check the spec
demands is missing from the code. -/
theorem equals_elementwise_over_receiver_only :
    equals ⟨-1, [1]⟩ ⟨-1, [1, 2]⟩ = true ∧ equals ⟨-1, [1, 2]⟩ ⟨-1, [1]⟩ = false := by
  decide

/-- C2 counterexample: encoding the spec scenario value does not produce the
claimed all-big-endian byte sequence, because path elements are written with
the little-endian writeU32. -/
theorem toRaw_concrete_not_bigendian_path :
    toRaw ⟨0xDEADBEEF, [0x8000002C, 0x80000000, 5]⟩ ≠
      [0xDE, 0xAD, 0xBE, 0xEF, 0x80, 0x00, 0x00, 0x2C,
       0x80, 0x00, 0x00, 0x00, 0x00, 0x00, 0x00, 0x05] := by
  decide

/-- C2 amended: encoding fingerprint 0xDEADBEEF with path
[0x8000002C, 0x80000000, 5] produces the 16 bytes of the 4-byte big-endian
fingerprint followed by each path element as 4 little-endian bytes. -/
theorem toRaw_concrete_littleendian_path :
    toRaw ⟨0xDEADBEEF, [0x8000002C, 0x80000000, 5]⟩ =
      [0xDE, 0xAD, 0xBE, 0xEF, 0x2C, 0x00, 0x00, 0x80,
       0x00, 0x00, 0x00, 0x80, 0x05, 0x00, 0x00, 0x00] := by
  decide

/-- C3 counterexample: deriving from a wallet key with account 5 stores the
JS signed 32-bit value of 5 OR 0x80000000, which is negative, violating the
claimed nonnegativity of all stored path elements. -/
theorem fromWalletKey_stores_negative_account :
    (fromWalletKey (fun _ => List.replicate 20 0) ⟨[], 5, 0, 3⟩).path =
      [-2147483643, 0, 3] ∧ (-2147483643 : Int) < 0 := by
  decide

/-- C3 amended: construction from options, raw bytes, or JSON yields only
unsigned 32-bit path elements and an unset-or-uint32 fingerprint; but
construction from a wallet key pushes the account element as the signed
32-bit OR with the hardened bit, which is negative for any account whose
32-bit pattern is below 2^31. -/
theorem construction_invariant :
    (∀ o k, fromOptions o = some k → WellFormed k) ∧
    (∀ d k, fromRaw d = some k → WellFormed k) ∧
    (∀ j k, fromJSON j = some k → WellFormed k) ∧
    (∀ (digest : List Nat → List Nat) (wk : WalletKey),
      (fromWalletKey digest wk).path = [jsOr wk.account HARDENED, wk.branch, wk.index] ∧
      (toUint32 wk.account < 2 ^ 31 → jsOr wk.account HARDENED < 0)) := by
  refine ⟨?_, ?_, ?_, ?_⟩
  · intro o k h
    obtain ⟨fp, path, hfp, hpath, hk⟩ := fromOptions_eq_some.mp h
    subst hk
    constructor
    · rcases fpFromField_cases hfp with h1 | h1
      · left; exact h1
      · right
        show toUint32 fp = fp
        unfold toUint32
        omega
    · exact pathFromOptionsField_u32 hpath
  · intro d k h
    obtain ⟨v, rest, hbe, hpath, hfp⟩ := fromRaw_eq_some h
    have hv := readU32BE_range hbe
    constructor
    · right
      rw [hfp]
      unfold toUint32
      omega
    · exact readPath_u32 rest k.path hpath
  · intro j k h
    obtain ⟨fp, path, hfp, hpath, hk⟩ := fromJSON_eq_some.mp h
    subst hk
    constructor
    · rcases fpFromField_cases hfp with h1 | h1
      · left; exact h1
      · right
        show toUint32 fp = fp
        unfold toUint32
        omega
    · exact pathFromJSONField_u32 hpath
  · intro digest wk
    refine ⟨rfl, ?_⟩
    intro hacc
    have hu : u32 wk.account < 2 ^ 31 := by
      unfold u32
      unfold toUint32 at hacc ⊢
      omega
    unfold jsOr
    rw [show u32 HARDENED = 2 ^ 31 by decide]
    rw [or32_top 31 32 (u32 wk.account) (by omega) hu]
    unfold toInt32
    rw [if_neg (by push_cast; omega)]
    push_cast
    omega

/-- Witness for C3 amended at a concrete options construction. -/
theorem construction_invariant_witness :
    fromOptions ⟨some 7, some (PathArg.arr [1, 2])⟩ = some ⟨7, [1, 2]⟩ ∧
    WellFormed ⟨7, [1, 2]⟩ :=
  ⟨by decide, construction_invariant.1 ⟨some 7, some (PathArg.arr [1, 2])⟩ ⟨7, [1, 2]⟩
    (by decide)⟩

/-- C6: derivation from a wallet key with account 5, branch 0, index 3 sets
the path to exactly [5 OR 0x80000000 (as the JS signed bitwise or, whose
32-bit pattern is 0x80000005, the account with the hardened bit set), 0, 3],
and the fingerprint to the first 4 bytes, big-endian, of the digest of the
public key; re-running the derivation gives an identical result. -/
theorem fromWalletKey_derivation (digest : List Nat → List Nat) (pk : List Nat)
    (b0 b1 b2 b3 : Nat) (rest : List Nat)
    (hd : digest pk = b0 :: b1 :: b2 :: b3 :: rest)
    (h0 : b0 < 256) (h1 : b1 < 256) (h2 : b2 < 256) (h3 : b3 < 256) :
    fromWalletKey digest ⟨pk, 5, 0, 3⟩ =
      ⟨((b0 * 2 ^ 24 + b1 * 2 ^ 16 + b2 * 2 ^ 8 + b3 : Nat) : Int),
        [jsOr 5 HARDENED, 0, 3]⟩ ∧
    toUint32 (jsOr 5 HARDENED) = 0x80000005 ∧
    fromWalletKey digest ⟨pk, 5, 0, 3⟩ = fromWalletKey digest ⟨pk, 5, 0, 3⟩ := by
  refine ⟨?_, by decide, rfl⟩
  have hstep : fromWalletKey digest ⟨pk, 5, 0, 3⟩ =
      ⟨((b0 % 256 * 2 ^ 24 + b1 % 256 * 2 ^ 16 + b2 % 256 * 2 ^ 8 + b3 % 256 : Nat) : Int),
        [jsOr 5 HARDENED, 0, 3]⟩ := by
    unfold fromWalletKey readUInt32BE0
    rw [hd]
    exact rfl
  rw [hstep, Nat.mod_eq_of_lt h0, Nat.mod_eq_of_lt h1, Nat.mod_eq_of_lt h2,
    Nat.mod_eq_of_lt h3]

/-- Witness for C6 with a concrete digest function and public key. -/
theorem fromWalletKey_derivation_witness :
    fromWalletKey (fun _ => 0xDE :: 0xAD :: 0xBE :: 0xEF :: List.replicate 16 0)
        ⟨[7], 5, 0, 3⟩ =
      ⟨((0xDE * 2 ^ 24 + 0xAD * 2 ^ 16 + 0xBE * 2 ^ 8 + 0xEF : Nat) : Int),
        [jsOr 5 HARDENED, 0, 3]⟩ ∧
    toUint32 (jsOr 5 HARDENED) = 0x80000005 ∧
    fromWalletKey (fun _ => 0xDE :: 0xAD :: 0xBE :: 0xEF :: List.replicate 16 0)
        ⟨[7], 5, 0, 3⟩ =
      fromWalletKey (fun _ => 0xDE :: 0xAD :: 0xBE :: 0xEF :: List.replicate 16 0)
        ⟨[7], 5, 0, 3⟩ :=
  fromWalletKey_derivation _ [7] 0xDE 0xAD 0xBE 0xEF (List.replicate 16 0) rfl
    (by decide) (by decide) (by decide) (by decide)

/-- C7: on JSON import a fingerprint field holding the literal 0 behaves
exactly like an absent field, and any successful import from such an object
has the unset sentinel -1 as fingerprint, not 0. -/
theorem fromJSON_zero_fingerprint_as_absent (p : Option PathArg) :
    fromJSON ⟨some 0, p⟩ = fromJSON ⟨none, p⟩ ∧
    ∀ k, fromJSON ⟨some 0, p⟩ = some k → k.fingerPrint = -1 := by
  constructor
  · rfl
  · intro k hk
    obtain ⟨fp, path, hfp, hpath, hk2⟩ := fromJSON_eq_some.mp hk
    simp only [fpFromField, beq_self_eq_true, if_pos, Option.some.injEq] at hfp
    subst hk2
    exact hfp.symm

/-- Witness for C7 at a concrete JSON object. -/
theorem fromJSON_zero_fingerprint_as_absent_witness :
    fromJSON ⟨some 0, some (PathArg.arr [1])⟩ = some ⟨-1, [1]⟩ ∧
    (KeyOriginInfo.mk (-1) [1]).fingerPrint = -1 :=
  ⟨by decide, (fromJSON_zero_fingerprint_as_absent (some (PathArg.arr [1]))).2 ⟨-1, [1]⟩
    (by decide)⟩

/-- C9: encoding a value whose fingerprint is the unset sentinel -1 (here a
cleared instance) does not fail: the fingerprint is written as FF FF FF FF
(reduced modulo 2^32), and decoding yields fingerprint 4294967295, which is
not the sentinel, so the unset state does not survive the round trip. -/
theorem toRaw_unset_sentinel_wraps :
    toRaw (clear ⟨0xDEADBEEF, [5]⟩) = [255, 255, 255, 255] ∧
    fromRaw (toRaw (clear ⟨0xDEADBEEF, [5]⟩)) = some ⟨4294967295, []⟩ ∧
    (4294967295 : Int) ≠ -1 := by
  decide

/-- C10: constructing from an options object whose fingerPrint field is the
literal 0 leaves the fingerprint at the unset sentinel -1, exactly as the
JSON import does: the truthiness test is the same in both paths. -/
theorem fromOptions_zero_fingerprint_as_absent (p : Option PathArg) :
    fromOptions ⟨some 0, p⟩ = fromOptions ⟨none, p⟩ ∧
    ∀ k, fromOptions ⟨some 0, p⟩ = some k → k.fingerPrint = -1 := by
  constructor
  · rfl
  · intro k hk
    obtain ⟨fp, path, hfp, hpath, hk2⟩ := fromOptions_eq_some.mp hk
    simp only [fpFromField, beq_self_eq_true, if_pos, Option.some.injEq] at hfp
    subst hk2
    exact hfp.symm

/-- Witness for C10 at a concrete options object. -/
theorem fromOptions_zero_fingerprint_as_absent_witness :
    fromOptions ⟨some 0, some (PathArg.arr [3])⟩ = some ⟨-1, [3]⟩ ∧
    (KeyOriginInfo.mk (-1) [3]).fingerPrint = -1 :=
  ⟨by decide, (fromOptions_zero_fingerprint_as_absent (some (PathArg.arr [3]))).2 ⟨-1, [3]⟩
    (by decide)⟩

/-! ### Format lemmas -/

theorem jsAnd_mask31 (p : Int) : jsAnd p 0x7fffffff = ((u32 p % 2 ^ 31 : Nat) : Int) := by
  unfold jsAnd
  rw [show u32 (0x7fffffff : Int) = 2 ^ 31 - 1 by decide]
  rw [and32_mask 31 32 (u32 p) (by omega)]
  exact toInt32_ofNat_small (Nat.mod_lt (u32 p) (by norm_num))

theorem jsAnd_hardened_of_ge (p : Int) (hc : 2 ^ 31 ≤ u32 p) :
    jsAnd p HARDENED = -(2 ^ 31) := by
  unfold jsAnd
  rw [show u32 HARDENED = 2 ^ 31 by decide]
  rw [and32_bit 31 32 (u32 p) (by omega)]
  have hu := u32_lt p
  have hd2 : u32 p / 2 ^ 31 % 2 = 1 := by omega
  rw [hd2, one_mul]
  decide

theorem jsAnd_hardened_of_lt (p : Int) (hc : u32 p < 2 ^ 31) :
    jsAnd p HARDENED = 0 := by
  unfold jsAnd
  rw [show u32 HARDENED = 2 ^ 31 by decide]
  rw [and32_bit 31 32 (u32 p) (by omega)]
  have hd2 : u32 p / 2 ^ 31 % 2 = 0 := by omega
  rw [hd2, zero_mul]
  decide

theorem toString_natCast (n : Nat) : toString ((n : Nat) : Int) = toString n := rfl

theorem foldl_formatStep (path : List Int) : ∀ acc : String,
    path.foldl formatStep acc = acc ++ specFormatPath path := by
  induction path with
  | nil =>
    intro acc
    simp [specFormatPath]
  | cons p ps ih =>
    intro acc
    rw [List.foldl_cons, ih (formatStep acc p),
      show specFormatPath (p :: ps) =
        "/" ++ toString (u32 p % 2 ^ 31) ++ (if 2 ^ 31 ≤ u32 p then "\x27" else "") ++
          specFormatPath ps from rfl]
    unfold formatStep
    rw [jsAnd_mask31 p, toString_natCast]
    by_cases hc : 2 ^ 31 ≤ u32 p
    · rw [jsAnd_hardened_of_ge p hc, if_pos hc,
        show ((-(2 ^ 31 : Int)) == 0) = false from by decide]
      simp [String.append_assoc]
    · rw [jsAnd_hardened_of_lt p (by omega), if_neg hc,
        show ((0 : Int) == 0) = true from by decide]
      simp [String.append_assoc]

/-- C8: formatting produces, for each path element in order, the decimal
numeral of the element with bit 31 masked out, followed by the marker
character exactly when bit 31 was set, all joined with slashes and prefixed
by m (the statement compares against `specFormatPath`, written from the
wording of the spec); in particular the spec scenario path formats to the
expected string with the marker on the two hardened elements. -/
theorem format_masks_and_marks_hardened :
    (format ⟨0xDEADBEEF, [0x8000002C, 0x80000000, 5]⟩).path = "m/44\x27/0\x27/5" ∧
    ∀ k : KeyOriginInfo, (format k).path = "m" ++ specFormatPath k.path := by
  have hgen : ∀ k : KeyOriginInfo, (format k).path = "m" ++ specFormatPath k.path := by
    intro k
    unfold format
    exact foldl_formatStep k.path "m"
  refine ⟨?_, hgen⟩
  rw [hgen]
  decide

end KeyOrigin
